import Mathlib

/-!
Verification of the filesystem scanning and aggregation engine of
`outline_repo.py` (functions `scan_tree`, `gather_stats`, `human_size`,
`human_readable`, and the `EXT_LANG` table), against its natural-language
specification.

The filesystem is modelled as a tree of entries.  A file carries the result of
`Path.stat().st_size`: `some size` on success, `none` when `stat` raises
`OSError` (the file is unreadable).  A directory carries a `readable` flag:
`false` means listing it (`os.scandir` during `os.walk`, or `Path.iterdir` in
`scan_tree`) raises, in which case `os.walk` yields no triple for it and
`scan_tree` renders no children for it.  The order of `children` is the order
in which the operating system lists the directory, which is the encounter
order of both traversals.

Relative paths are modelled as their lists of segments (`PurePath.parts`);
the source's posix-joined string keys are the `/`-join of these segments,
which is injective because real path segments are nonempty and `/`-free.
-/

set_option maxHeartbeats 1000000

namespace OutlineRepo

/-- A node of the scanned filesystem tree. -/
inductive Entry : Type where
  | file (name : String) (stat : Option Nat)
  | dir (name : String) (readable : Bool) (children : List Entry)

/-- `entry.name` of pathlib. -/
def Entry.name : Entry → String
  | .file n _ => n
  | .dir n _ _ => n

/-- `entry.is_file()`. -/
def Entry.isFile : Entry → Bool
  | .file _ _ => true
  | .dir _ _ _ => false

/-- `entry.is_dir()`. -/
def Entry.isDir (e : Entry) : Bool := !e.isFile

/-- The `DEFAULT_IGNORES` set of `outline_repo.py` (lines 22–28). -/
def DEFAULT_IGNORES : List String :=
  [".git", ".hg", ".svn", ".DS_Store",
   "node_modules", "dist", "build", ".next", ".expo",
   ".venv", "venv", ".env", "__pycache__", ".pytest_cache",
   ".parcel-cache", ".turbo", ".cache", "target", "out", ".gradle",
   ".idea", ".vscode", ".pnpm-store"]

/-- The `EXT_LANG` extension-to-language table of `outline_repo.py`
(lines 30–67), as an association list (its keys are distinct, so lookup
agrees with the Python dict). -/
def EXT_LANG : List (String × String) :=
  [(".js", "JavaScript"), (".jsx", "JavaScript/React"), (".ts", "TypeScript"),
   (".tsx", "TypeScript/React"),
   (".vue", "Vue"), (".svelte", "Svelte"), (".astro", "Astro"),
   (".css", "CSS"), (".scss", "SCSS"), (".sass", "SASS"), (".less", "LESS"),
   (".html", "HTML"), (".htm", "HTML"),
   (".py", "Python"),
   (".java", "Java"), (".kt", "Kotlin"), (".kts", "Kotlin"),
   (".c", "C"), (".h", "C Header"), (".hpp", "C++ Header"), (".hh", "C++ Header"),
   (".cpp", "C++"), (".cc", "C++"), (".cxx", "C++"),
   (".cs", "C#"),
   (".go", "Go"),
   (".rs", "Rust"),
   (".swift", "Swift"),
   (".php", "PHP"),
   (".rb", "Ruby"),
   (".sh", "Shell"), (".bash", "Shell"), (".zsh", "Shell"),
   (".sql", "SQL"), (".yaml", "YAML"), (".yml", "YAML"), (".json", "JSON"),
   (".toml", "TOML"), (".ini", "INI"), (".env", "ENV"),
   (".md", "Markdown"), (".rst", "reStructuredText"),
   (".gradle", "Gradle"), (".groovy", "Groovy"),
   (".dart", "Dart"),
   (".r", "R"),
   (".pl", "Perl"),
   (".hs", "Haskell"),
   (".scala", "Scala"),
   (".lua", "Lua")]

/-- The index of the last `'.'` in a name, if any: Python's `name.rfind('.')`
restricted to the found case. -/
def lastDot (cs : List Char) : Option Nat :=
  ((List.range cs.length).filter (fun i => cs.get? i == some '.')).getLast?

/-- `PurePath.suffix` of pathlib, as used by `p.suffix` in `gather_stats`
(line 145): the part of the final component from its last dot on, but only
when that dot is neither the first nor the last character; otherwise the
empty string (so a pure dotfile such as `.env` has suffix `""`). -/
def pathSuffix (name : String) : String :=
  let cs := name.toList
  match lastDot cs with
  | none => ""
  | some i => if 0 < i ∧ i < cs.length - 1 then String.mk (cs.drop i) else ""

/-! ### The Aggregator (`gather_stats`, lines 120–158) -/

/-- The `filenames` component of an `os.walk` triple: the non-directory
children, in listing order. -/
def filesOf (cs : List Entry) : List (String × Option Nat) :=
  cs.filterMap fun e =>
    match e with
    | .file n s => some (n, s)
    | .dir _ _ _ => none

mutual
/-- `os.walk` (line 127) from a directory whose relative path from the root
has segments `parts`, with the in-place pruning of ignored directory names of
line 129 (`dirnames[:] = [d for d in dirnames if d not in ignores]`).  Each
yielded triple is reduced to what `gather_stats` consumes: the segments of
`rel_dir` and the `filenames` list (with each file's `st_size` outcome).
A directory whose listing raises yields no triple and is not descended into
(`os.walk` with `onerror=None`). -/
def walkEntry (ig : List String) (parts : List String) : Entry → List (List String × List (String × Option Nat))
  | .file _ _ => []
  | .dir _ false _ => []
  | .dir _ true cs => (parts, filesOf cs) :: walkChildren ig parts cs

/-- The recursive descent of `os.walk` into the pruned `dirnames`, in listing
order. -/
def walkChildren (ig : List String) (parts : List String) : List Entry → List (List String × List (String × Option Nat))
  | [] => []
  | .file _ _ :: es => walkChildren ig parts es
  | .dir n r cs :: es =>
    (if n ∈ ig then [] else walkEntry ig (parts ++ [n]) (.dir n r cs)) ++ walkChildren ig parts es
end

/-- The mutable state of `gather_stats` (lines 121–125): `lang_counts`,
`total_files`, `total_bytes`, `file_sizes`, `folder_sizes`.  The two Python
dicts (`Counter` and `defaultdict(int)`) are modelled as association lists in
key-insertion order, which is exactly the iteration order of a Python dict. -/
structure ScanAcc where
  total_files : Nat
  total_bytes : Nat
  lang_counts : List (String × Nat)
  file_sizes : List (List String × Nat)
  folder_sizes : List (List String × Nat)

/-- `table[key] += sz` on a `defaultdict(int)` / `Counter`: add to the
existing entry, or append a new key at the end (Python dicts keep insertion
order). -/
def bump {κ : Type} [DecidableEq κ] (m : List (κ × Nat)) (key : κ) (sz : Nat) : List (κ × Nat) :=
  match m with
  | [] => [(key, sz)]
  | (k, v) :: rest => if k = key then (k, v + sz) :: rest else (k, v) :: bump rest key sz

/-- Lines 142–144: `for i in range(1, len(parts)+1): folder_sizes[Path(*parts[:i])] += sz` —
the file's size is added to every nonempty prefix of its directory's
segment list. -/
def bumpAncestors (m : List (List String × Nat)) (parts : List String) (sz : Nat) : List (List String × Nat) :=
  (List.range parts.length).foldl (fun t i => bump t (parts.take (i + 1)) sz) m

/-- The body of the inner loop of `gather_stats` (lines 131–148) for one
entry `f` of `filenames`: skip it if its name is ignored (line 132) or its
`stat` raised (lines 135–138); otherwise count it, record its `FileRecord`,
credit every ancestor folder, and classify its extension. -/
def processFile (ig : List String) (parts : List String) (acc : ScanAcc) (f : String × Option Nat) : ScanAcc :=
  if f.1 ∈ ig then acc
  else
    match f.2 with
    | none => acc
    | some sz =>
      { total_files := acc.total_files + 1
        total_bytes := acc.total_bytes + sz
        file_sizes := acc.file_sizes ++ [(parts ++ [f.1], sz)]
        folder_sizes := bumpAncestors acc.folder_sizes parts sz
        lang_counts :=
          match List.lookup ((pathSuffix f.1).toLower) EXT_LANG with
          | some lang => bump acc.lang_counts lang 1
          | none => acc.lang_counts }

/-- Processing of one `os.walk` triple by `gather_stats`. -/
def processTriple (ig : List String) (acc : ScanAcc) (t : List String × List (String × Option Nat)) : ScanAcc :=
  t.2.foldl (processFile ig t.1) acc

/-- The initial accumulator state of `gather_stats` (lines 121–125). -/
def initAcc : ScanAcc :=
  { total_files := 0, total_bytes := 0, lang_counts := [], file_sizes := [], folder_sizes := [] }

/-- The accumulator after the full `os.walk` loop of `gather_stats`
(lines 127–148): `file_sizes` is the full FileRecord list and `folder_sizes`
the full FolderSizeTable, before top-N truncation. -/
def gatherAcc (ig : List String) (root : Entry) : ScanAcc :=
  (walkEntry ig [] root).foldl (processTriple ig) initAcc

/-- Python's `sorted` with a boolean `le` comparator (`le a b` = "`a` may come
before `b`"), modelled by a stable insertion sort: for a total transitive
comparator any stable sort, in particular CPython's timsort, produces this
list. -/
def insertLe {α : Type} (le : α → α → Bool) (a : α) : List α → List α
  | [] => [a]
  | b :: bs => if le a b then a :: b :: bs else b :: insertLe le a bs

/-- Stable sort (see `insertLe`): an element is inserted before every later
element it compares `le` to, so elements that compare equal keep their
original order. -/
def sortStable {α : Type} (le : α → α → Bool) : List α → List α
  | [] => []
  | a :: as => insertLe le a (sortStable le as)

/-- The comparator of `sorted(..., key=lambda x: x[1], reverse=True)`
(lines 150–151): descending by size, ties keeping encounter order. -/
def sizeDescLe {α : Type} (x y : α × Nat) : Bool := decide (y.2 ≤ x.2)

/-- The dict returned by `gather_stats` (lines 152–158). -/
structure ScanStats where
  total_files : Nat
  total_bytes : Nat
  lang_counts : List (String × Nat)
  top_files : List (List String × Nat)
  top_folders : List (List String × Nat)

/-- `gather_stats` (lines 120–158): the full walk, then
`top_files = sorted(file_sizes, key=size, reverse=True)[:15]` and
`top_folders = sorted(folder_sizes.items(), key=size, reverse=True)[:10]`. -/
def gather_stats (ig : List String) (root : Entry) : ScanStats :=
  let acc := gatherAcc ig root
  { total_files := acc.total_files
    total_bytes := acc.total_bytes
    lang_counts := acc.lang_counts
    top_files := (sortStable sizeDescLe acc.file_sizes).take 15
    top_folders := (sortStable sizeDescLe acc.folder_sizes).take 10 }

/-! ### The Tree Renderer (`scan_tree`, lines 99–118) -/

/-- The comparator of line 105,
`sorted(path.iterdir(), key=lambda p: (p.is_file(), p.name.lower()))`:
lexicographic on the pair (is-file, lowercased name) with `False < True`,
so directories come before files and each group is ordered
case-insensitively. -/
def keyLe (a b : Entry) : Bool :=
  if a.isFile = b.isFile then !decide (b.name.toLower < a.name.toLower)
  else !a.isFile

/-- The stable sort of the children of a directory (line 105). -/
def sortEntries (cs : List Entry) : List Entry := sortStable keyLe cs

mutual
/-- The recursive `helper` of `scan_tree` (lines 101–115), for the entry
whose children are to be listed.  The source's guard `current_depth > depth`
is modelled by the fuel `k = depth + 1 - current_depth`, which is `0` exactly
when the guard fires; the top-level call `helper(root, "", 1)` hence gets
fuel `depth`.  An unreadable directory (`iterdir` raising, lines 104–107)
yields no lines; a file yields no lines (the helper is only entered for
directories, line 113). -/
def renderEntry (ig : List String) (pre : String) : Nat → Entry → List String
  | _, .file _ _ => []
  | _, .dir _ false _ => []
  | 0, .dir _ true _ => []
  | k + 1, .dir _ true cs =>
    renderChildren ig pre k ((sortEntries cs).filter (fun e => decide (e.name ∉ ig)))
termination_by k e => (k, 0)

/-- The `for i, entry in enumerate(entries)` loop of lines 109–115: the last
child uses the terminal connector and extends the prefix with blanks, every
other child uses the continuing connector and extends the prefix with a bar;
a directory child's name gets a trailing `/` and its subtree follows its own
line immediately. -/
def renderChildren (ig : List String) (pre : String) (k : Nat) : List Entry → List String
  | [] => []
  | [e] =>
    (pre ++ "└── " ++ e.name ++ (if e.isDir then "/" else "")) ::
      renderEntry ig (pre ++ "    ") k e
  | e :: e' :: es =>
    (pre ++ "├── " ++ e.name ++ (if e.isDir then "/" else "")) ::
      (renderEntry ig (pre ++ "│   ") k e ++ renderChildren ig pre k (e' :: es))
termination_by l => (k, l.length + 1)
end

/-- `scan_tree` (lines 99–118): the root's own line `root.name + "/"`
(line 116) followed by `helper(root, "", 1)` (line 117). -/
def scan_tree (root : Entry) (depth : Nat) (ig : List String) : List String :=
  (root.name ++ "/") :: renderEntry ig "" depth root

/-! ### The byte-size formatters (`human_size`, lines 91–97, and
`human_readable`, lines 253–259) -/

/-- Python's `f"{size:.1f}"` for the nonnegative values reached here: the
value rounded to one decimal place.  (CPython rounds the binary double; the
choice of rounding for exact halves never changes the shape
"digits, dot, one digit", which is all the specification states.) -/
def fmt1 (q : ℚ) : String :=
  let t : Nat := (round (q * 10)).toNat
  toString (t / 10) ++ "." ++ toString (t % 10)

/-- The outcome of a call to one of the size formatters: either the
`float(...)` conversion on entry raises `OverflowError` and no string is
produced (`overflow`), or the function returns — `returns none` being
Python's implicit `return None` were the loop ever exhausted. -/
inductive FmtResult : Type where
  | overflow
  | returns (r : Option String)

/-- `size = float(num_bytes)` (lines 93 and 255): CPython converts the int to
the nearest IEEE double and raises `OverflowError` exactly when the rounded
value is infinite, i.e. when `n ≥ 2^1024 − 2^970` (round-to-nearest-even at
the halfway point above the largest finite double).  The finite value is kept
as the exact rational rather than rounded to 53 bits of precision; that can
change the printed digits, and at exact powers the unit chosen, but never
whether a string is returned nor its shape. -/
def pyFloat (n : Nat) : Option ℚ :=
  if n < 2 ^ 1024 - 2 ^ 970 then some (n : ℚ) else none

/-- The `for u in units` loop of `human_size` (lines 94–97): return at the
first unit for which `size < 1024.0` or which is the last unit
(`u == units[-1]`, i.e. `u == "TB"`), else divide by 1024 and continue;
`none` models Python's implicit `return None` if the loop were exhausted. -/
def human_size_go (size : ℚ) : List String → Option String
  | [] => none
  | u :: us =>
    if size < 1024 ∨ u = "TB" then some (fmt1 size ++ " " ++ u)
    else human_size_go (size / 1024) us

/-- `human_size` (lines 91–97): convert to float — which may raise — then run
the unit loop. -/
def human_size (num_bytes : Nat) : FmtResult :=
  match pyFloat num_bytes with
  | none => .overflow
  | some size => .returns (human_size_go size ["B", "KB", "MB", "GB", "TB"])

/-- The `for u in units` loop of `human_readable` (lines 256–259); the body
is character-for-character the body of `human_size`'s loop, with the literal
`1024` in place of `1024.0` (the same rational). -/
def human_readable_go (size : ℚ) : List String → Option String
  | [] => none
  | u :: us =>
    if size < 1024 ∨ u = "TB" then some (fmt1 size ++ " " ++ u)
    else human_readable_go (size / 1024) us

/-- `human_readable` (lines 253–259): convert to float — which may raise —
then run the unit loop. -/
def human_readable (n : Nat) : FmtResult :=
  match pyFloat n with
  | none => .overflow
  | some size => .returns (human_readable_go size ["B", "KB", "MB", "GB", "TB"])

/-! ### Tree transformations used to state invisibility properties -/

mutual
/-- The tree with every entry (file or directory) whose bare name is in the
exclusion set removed, recursively.  Only the children are pruned: neither
traversal ever tests the root's own name. -/
def prune (ig : List String) : Entry → Entry
  | .file n s => .file n s
  | .dir n r cs => .dir n r (pruneList ig cs)

/-- Children of a directory after pruning excluded names, recursively. -/
def pruneList (ig : List String) : List Entry → List Entry
  | [] => []
  | e :: es => if e.name ∈ ig then pruneList ig es else prune ig e :: pruneList ig es
end

mutual
/-- The tree with every unreadable item scrubbed: a file whose `stat` raised
is removed, and a directory whose listing raises is replaced by an empty
readable directory. -/
def scrubStats : Entry → Entry
  | .file n s => .file n s
  | .dir n false _ => .dir n true []
  | .dir n true cs => .dir n true (scrubList cs)

/-- Children of a directory after scrubbing unreadable items. -/
def scrubList : List Entry → List Entry
  | [] => []
  | .file _ none :: es => scrubList es
  | .file n (some sz) :: es => .file n (some sz) :: scrubList es
  | .dir n r cs :: es => scrubStats (.dir n r cs) :: scrubList es
end

mutual
/-- The tree with every directory whose listing raises replaced by an empty
readable directory (files are kept, readable or not). -/
def scrubDirs : Entry → Entry
  | .file n s => .file n s
  | .dir n false _ => .dir n true []
  | .dir n true cs => .dir n true (scrubDirsList cs)

/-- Children of a directory after `scrubDirs`. -/
def scrubDirsList : List Entry → List Entry
  | [] => []
  | e :: es => scrubDirs e :: scrubDirsList es
end

mutual
/-- The tree cut off below nesting level `k`: at level `0` a directory keeps
no children at all. -/
def truncTree : Nat → Entry → Entry
  | _, .file n s => .file n s
  | 0, .dir n r _ => .dir n r []
  | k + 1, .dir n r cs => .dir n r (truncList k cs)

/-- Children of a directory after truncation at the given remaining depth. -/
def truncList (k : Nat) : List Entry → List Entry
  | [] => []
  | e :: es => truncTree k e :: truncList k es
end

/-! ### Brute-force recomputation (the specification's own reading) -/

/-- Sum of the byte sizes of a list of FileRecords. -/
def sumSizes (l : List (List String × Nat)) : Nat := (l.map Prod.snd).sum

/-- Modelled from the spec: the brute-force recomputation of a folder's
cumulative size — the sum of the sizes of all recorded files whose relative
path has `F` as a proper ancestor prefix. -/
def recompute (F : List String) (files : List (List String × Nat)) : Nat :=
  sumSizes (files.filter (fun fs => decide (F <+: fs.1) && decide (F ≠ fs.1)))

/-- Reading off a folder's total from the table (0 if absent), i.e.
`folder_sizes[F]` on a `defaultdict(int)` without inserting. -/
def lookupSize (F : List String) : List (List String × Nat) → Nat
  | [] => 0
  | (k, v) :: rest => if k = F then v else lookupSize F rest

/-- The list of keys credited for one file whose directory has segments
`parts`: the nonempty prefixes `parts[:1], …, parts[:len(parts)]`. -/
def prefList (parts : List String) : List (List String) :=
  (List.range parts.length).map (fun i => parts.take (i + 1))

/-- The loop invariant of `gather_stats`: the folder table has distinct,
nonempty keys, each key's value is the brute-force recomputation over the
recorded files, and the running totals agree with the recorded files. -/
def Inv (acc : ScanAcc) : Prop :=
  (acc.folder_sizes.map Prod.fst).Nodup ∧
  (∀ kv ∈ acc.folder_sizes, kv.1 ≠ []) ∧
  (∀ F : List String, F ≠ [] → lookupSize F acc.folder_sizes = recompute F acc.file_sizes) ∧
  acc.total_bytes = sumSizes acc.file_sizes ∧
  acc.total_files = acc.file_sizes.length

/-- Exclusion soundness: no recorded file path and no folder key contains an
excluded name as a segment. -/
def SegOK (ig : List String) (acc : ScanAcc) : Prop :=
  (∀ fs ∈ acc.file_sizes, ∀ seg ∈ fs.1, seg ∉ ig) ∧
  (∀ kv ∈ acc.folder_sizes, ∀ seg ∈ kv.1, seg ∉ ig)

/-! ### Concrete trees used as witnesses -/

/-- The specification's scenario tree: `src/main.go` (500 bytes),
`src/lib/util.go` (300 bytes), `README.md` (100 bytes). -/
def T0 : Entry :=
  .dir "root" true
    [.dir "src" true [.file "main.go" (some 500), .dir "lib" true [.file "util.go" (some 300)]],
     .file "README.md" (some 100)]

/-- The top-N stability scenario: files of sizes 100, 50, 100, 10 named
`a`, `b`, `c`, `d`, in that encounter order. -/
def E4 : Entry :=
  .dir "r" true
    [.file "a" (some 100), .file "b" (some 50), .file "c" (some 100), .file "d" (some 10)]

/-! ## Generic lemmas about the stable sort -/

theorem insertLe_perm {α : Type} (le : α → α → Bool) (a : α) (l : List α) :
    (insertLe le a l).Perm (a :: l) := by
  induction l with
  | nil => simp [insertLe]
  | cons b bs ih =>
    by_cases h : le a b = true
    · simp [insertLe, h]
    · simp only [insertLe, h, if_false, Bool.false_eq_true]
      exact (ih.cons b).trans (List.Perm.swap a b bs)

theorem sortStable_perm {α : Type} (le : α → α → Bool) (l : List α) :
    (sortStable le l).Perm l := by
  induction l with
  | nil => exact List.Perm.refl _
  | cons a as ih => exact (insertLe_perm le a _).trans (ih.cons a)

theorem mem_insertLe {α : Type} (le : α → α → Bool) (a x : α) (l : List α) :
    x ∈ insertLe le a l ↔ x = a ∨ x ∈ l := by
  rw [(insertLe_perm le a l).mem_iff, List.mem_cons]

theorem pairwise_insertLe {α : Type} {le : α → α → Bool}
    (htot : ∀ x y, le x y = true ∨ le y x = true)
    (htrans : ∀ x y z, le x y = true → le y z = true → le x z = true)
    (a : α) {l : List α} (hl : l.Pairwise (fun x y => le x y = true)) :
    (insertLe le a l).Pairwise (fun x y => le x y = true) := by
  induction l with
  | nil => simp [insertLe]
  | cons b bs ih =>
    rw [List.pairwise_cons] at hl
    obtain ⟨hb, hbs⟩ := hl
    by_cases h : le a b = true
    · simp only [insertLe, h, if_true]
      rw [List.pairwise_cons]
      refine ⟨?_, List.pairwise_cons.mpr ⟨hb, hbs⟩⟩
      intro x hx
      rcases List.mem_cons.mp hx with rfl | hx
      · exact h
      · exact htrans a b x h (hb x hx)
    · simp only [insertLe, h, if_false, Bool.false_eq_true]
      rw [List.pairwise_cons]
      refine ⟨?_, ih hbs⟩
      intro x hx
      rcases (mem_insertLe le a x bs).mp hx with rfl | hx
      · rcases htot x b with h' | h'
        · exact absurd h' h
        · exact h'
      · exact hb x hx

theorem sortStable_pairwise {α : Type} {le : α → α → Bool}
    (htot : ∀ x y, le x y = true ∨ le y x = true)
    (htrans : ∀ x y z, le x y = true → le y z = true → le x z = true)
    (l : List α) : (sortStable le l).Pairwise (fun x y => le x y = true) := by
  induction l with
  | nil => simp [sortStable]
  | cons a as ih => exact pairwise_insertLe htot htrans a ih

theorem insertLe_eq_cons {α : Type} (le : α → α → Bool) (a : α) (l : List α)
    (hall : ∀ x ∈ l, le a x = true) : insertLe le a l = a :: l := by
  cases l with
  | nil => rfl
  | cons b bs => simp [insertLe, hall b (by simp)]

theorem filter_insertLe_neg {α : Type} (le : α → α → Bool) (P : α → Bool) (a : α)
    (l : List α) (ha : ¬ P a = true) :
    (insertLe le a l).filter P = l.filter P := by
  induction l with
  | nil => simp [insertLe, List.filter_cons, ha]
  | cons b bs ih =>
    by_cases h : le a b = true
    · simp [insertLe, h, List.filter_cons, ha]
    · simp only [insertLe, h, if_false, Bool.false_eq_true]
      simp [List.filter_cons, ih]

theorem filter_insertLe_pos {α : Type} {le : α → α → Bool}
    (htrans : ∀ x y z, le x y = true → le y z = true → le x z = true)
    (P : α → Bool) (a : α) {l : List α} (ha : P a = true)
    (hl : l.Pairwise (fun x y => le x y = true)) :
    (insertLe le a l).filter P = insertLe le a (l.filter P) := by
  induction l with
  | nil => simp [insertLe, List.filter_cons, ha]
  | cons b bs ih =>
    rw [List.pairwise_cons] at hl
    obtain ⟨hb, hbs⟩ := hl
    by_cases h : le a b = true
    · simp only [insertLe, h, if_true]
      rw [List.filter_cons_of_pos ha]
      rw [insertLe_eq_cons]
      intro x hx
      rw [List.mem_filter] at hx
      rcases List.mem_cons.mp hx.1 with rfl | hx'
      · exact h
      · exact htrans a b x h (hb x hx')
    · simp only [insertLe, h, if_false, Bool.false_eq_true]
      by_cases hPb : P b = true
      · rw [List.filter_cons_of_pos hPb, List.filter_cons_of_pos hPb, ih hbs]
        rw [insertLe, if_neg]
        simp [h]
      · rw [List.filter_cons_of_neg (by simp [hPb]), List.filter_cons_of_neg (by simp [hPb])]
        exact ih hbs

theorem sortStable_filter {α : Type} {le : α → α → Bool}
    (htot : ∀ x y, le x y = true ∨ le y x = true)
    (htrans : ∀ x y z, le x y = true → le y z = true → le x z = true)
    (P : α → Bool) (l : List α) :
    sortStable le (l.filter P) = (sortStable le l).filter P := by
  induction l with
  | nil => rfl
  | cons a as ih =>
    by_cases ha : P a = true
    · rw [List.filter_cons_of_pos ha]
      show insertLe le a (sortStable le (as.filter P)) = _
      rw [ih, sortStable,
        filter_insertLe_pos htrans P a ha (sortStable_pairwise htot htrans as)]
    · rw [List.filter_cons_of_neg (by simp [ha])]
      rw [ih, sortStable, filter_insertLe_neg le P a _ ha]

theorem insertLe_map {α β : Type} (le : α → α → Bool) (le' : β → β → Bool) (f : α → β)
    (hf : ∀ x y, le' (f x) (f y) = le x y) (a : α) (l : List α) :
    insertLe le' (f a) (l.map f) = (insertLe le a l).map f := by
  induction l with
  | nil => rfl
  | cons b bs ih =>
    by_cases h : le a b = true
    · simp [insertLe, hf, h]
    · simp [insertLe, hf, h, ih]

theorem sortStable_map {α β : Type} (le : α → α → Bool) (le' : β → β → Bool) (f : α → β)
    (hf : ∀ x y, le' (f x) (f y) = le x y) (l : List α) :
    sortStable le' (l.map f) = (sortStable le l).map f := by
  induction l with
  | nil => rfl
  | cons a as ih =>
    rw [List.map_cons]
    show insertLe le' (f a) (sortStable le' (as.map f)) = _
    rw [ih, insertLe_map le le' f hf]
    rfl

theorem sortStable_eq_self {α : Type} (le : α → α → Bool) (l : List α)
    (hall : ∀ x ∈ l, ∀ y ∈ l, le x y = true) : sortStable le l = l := by
  induction l with
  | nil => rfl
  | cons a as ih =>
    rw [sortStable, ih (fun x hx y hy => hall x (by simp [hx]) y (by simp [hy]))]
    exact insertLe_eq_cons le a as fun x hx => hall a (by simp) x (by simp [hx])

/-! ## Lemmas about the folder-size table -/

theorem lookupSize_bump (m : List (List String × Nat)) (k F : List String) (sz : Nat) :
    lookupSize F (bump m k sz) = lookupSize F m + if k = F then sz else 0 := by
  induction m with
  | nil => by_cases h : k = F <;> simp [bump, lookupSize, h]
  | cons kv rest ih =>
    obtain ⟨k0, v0⟩ := kv
    by_cases h0 : k0 = k
    · subst h0
      by_cases h : k0 = F <;> simp [bump, lookupSize, h]
    · rw [bump, if_neg h0]
      by_cases h : k0 = F
      · subst h
        have : k ≠ k0 := fun hk => h0 hk.symm
        simp [lookupSize, this]
      · simp [lookupSize, h, ih]

theorem keys_bump (m : List (List String × Nat)) (k : List String) (sz : Nat) :
    (bump m k sz).map Prod.fst =
      if k ∈ m.map Prod.fst then m.map Prod.fst else m.map Prod.fst ++ [k] := by
  induction m with
  | nil => simp [bump]
  | cons kv rest ih =>
    obtain ⟨k0, v0⟩ := kv
    by_cases h0 : k0 = k
    · subst h0; simp [bump]
    · have hk : k ≠ k0 := fun hk => h0 hk.symm
      rw [bump, if_neg h0]
      simp only [List.map_cons, List.mem_cons, hk, false_or, ih]
      by_cases h : k ∈ rest.map Prod.fst <;> simp [h]

theorem nodup_keys_bump {m : List (List String × Nat)} (k : List String) (sz : Nat)
    (h : (m.map Prod.fst).Nodup) : ((bump m k sz).map Prod.fst).Nodup := by
  rw [keys_bump]
  by_cases hk : k ∈ m.map Prod.fst
  · simpa [hk]
  · simp only [hk, if_false]
    rw [List.nodup_append]
    refine ⟨h, List.nodup_singleton k, ?_⟩
    intro a ha hak
    rw [List.mem_singleton] at hak
    exact hk (hak ▸ ha)

theorem fst_mem_bump {m : List (List String × Nat)} {k : List String} {sz : Nat} :
    ∀ kv ∈ bump m k sz, kv.1 ∈ m.map Prod.fst ∨ kv.1 = k := by
  intro kv hkv
  have : kv.1 ∈ (bump m k sz).map Prod.fst := List.mem_map_of_mem Prod.fst hkv
  rw [keys_bump] at this
  by_cases hk : k ∈ m.map Prod.fst
  · rw [if_pos hk] at this; exact Or.inl this
  · rw [if_neg hk] at this
    rcases List.mem_append.mp this with h | h
    · exact Or.inl h
    · exact Or.inr (by simpa using h)

theorem lookupSize_foldl_bump (sz : Nat) (F : List String) :
    ∀ (ks : List (List String)) (m : List (List String × Nat)),
    lookupSize F (ks.foldl (fun t k => bump t k sz) m) =
      lookupSize F m + sz * ks.count F := by
  intro ks
  induction ks with
  | nil => simp
  | cons k ks ih =>
    intro m
    rw [List.foldl_cons, ih, lookupSize_bump, List.count_cons]
    by_cases h : k = F
    · subst h
      simp only [if_pos rfl, beq_self_eq_true, if_true]
      ring
    · have h2 : (k == F) = false := by
        rw [beq_eq_false_iff_ne]
        exact h
      simp only [if_neg h, h2, Bool.false_eq_true, if_false]
      ring

theorem nodup_keys_foldl_bump (sz : Nat) :
    ∀ (ks : List (List String)) (m : List (List String × Nat)),
    (m.map Prod.fst).Nodup → ((ks.foldl (fun t k => bump t k sz) m).map Prod.fst).Nodup := by
  intro ks
  induction ks with
  | nil => intro m h; exact h
  | cons k ks ih => intro m h; exact ih _ (nodup_keys_bump k sz h)

theorem ne_nil_keys_foldl_bump (sz : Nat) :
    ∀ (ks : List (List String)) (m : List (List String × Nat)),
    (∀ k ∈ ks, k ≠ ([] : List String)) → (∀ kv ∈ m, kv.1 ≠ ([] : List String)) →
    ∀ kv ∈ ks.foldl (fun t k => bump t k sz) m, kv.1 ≠ ([] : List String) := by
  intro ks
  induction ks with
  | nil => intro m _ hm; exact hm
  | cons k ks ih =>
    intro m hks hm
    refine ih _ (fun k' hk' => hks k' (by simp [hk'])) ?_
    intro kv hkv
    rcases fst_mem_bump kv hkv with h | h
    · obtain ⟨kv', hkv', hfst⟩ := List.mem_map.mp h
      exact hfst ▸ hm kv' hkv'
    · exact h ▸ hks k (by simp)

theorem bumpAncestors_eq_foldl (m : List (List String × Nat)) (parts : List String) (sz : Nat) :
    bumpAncestors m parts sz = (prefList parts).foldl (fun t k => bump t k sz) m := by
  rw [bumpAncestors, prefList, List.foldl_map]

theorem prefList_cons (p : String) (ps : List String) :
    prefList (p :: ps) = [p] :: (prefList ps).map (fun l => p :: l) := by
  unfold prefList
  rw [List.length_cons, List.range_succ_eq_map, List.map_cons, List.map_map, List.map_map]
  simp [Function.comp_def, List.take_succ_cons]

theorem ne_nil_of_mem_prefList {parts : List String} {q : List String}
    (hq : q ∈ prefList parts) : q ≠ [] := by
  unfold prefList at hq
  obtain ⟨i, hi, rfl⟩ := List.mem_map.mp hq
  have hlt : i < parts.length := List.mem_range.mp hi
  intro h
  have hlen := congrArg List.length h
  rw [List.length_take] at hlen
  simp only [List.length_nil] at hlen
  omega

theorem count_map_cons_nil (p : String) (L : List (List String)) :
    (L.map (fun l => p :: l)).count ([] : List String) = 0 := by
  rw [List.count_eq_zero]
  intro h
  obtain ⟨l, _, hl⟩ := List.mem_map.mp h
  exact List.cons_ne_nil p l hl

theorem count_map_cons (p q : String) (qs : List String) (L : List (List String)) :
    (L.map (fun l => p :: l)).count (q :: qs) = if q = p then L.count qs else 0 := by
  induction L with
  | nil => simp
  | cons l L ih =>
    rw [List.map_cons, List.count_cons, ih, List.count_cons]
    by_cases hq : q = p
    · subst hq
      by_cases h : qs = l
      · subst h; simp
      · have h1 : ((q :: l) == (q :: qs)) = false := by
          rw [beq_eq_false_iff_ne]
          simp
          exact fun hl => h hl.symm
        have h2 : (l == qs) = false := by
          rw [beq_eq_false_iff_ne]
          exact fun hl => h hl.symm
        simp [h1, h2]
    · have h1 : ((p :: l) == (q :: qs)) = false := by
        rw [beq_eq_false_iff_ne]
        simp
        intro hp
        exact absurd hp.symm hq
      simp [h1, hq]

theorem count_prefList : ∀ (parts F : List String),
    (prefList parts).count F = if F ≠ [] ∧ F <+: parts then 1 else 0 := by
  intro parts
  induction parts with
  | nil =>
    intro F
    by_cases h : F = []
    · simp [prefList, h]
    · simp [prefList, h, List.prefix_nil]
  | cons p ps ih =>
    intro F
    rw [prefList_cons]
    cases F with
    | nil =>
      rw [List.count_cons, count_map_cons_nil]
      have h1 : (([p] : List String) == []) = false := by
        rw [beq_eq_false_iff_ne]
        simp
      simp [h1]
    | cons q qs =>
      rw [List.count_cons, count_map_cons]
      by_cases hq : q = p
      · subst hq
        by_cases h0 : qs = []
        · subst h0
          have hz : (prefList ps).count ([] : List String) = 0 := by
            rw [List.count_eq_zero]
            intro hmem
            exact ne_nil_of_mem_prefList hmem rfl
          rw [if_pos rfl, hz]
          simp [List.cons_prefix_cons]
        · rw [if_pos rfl, ih]
          have h1 : (([q] : List String) == (q :: qs)) = false := by
            rw [beq_eq_false_iff_ne]
            simp
            exact h0
          rw [h1]
          by_cases h : qs <+: ps
          · simp [h, h0, List.cons_prefix_cons]
          · simp [h, h0, List.cons_prefix_cons]
      · have h1 : (([p] : List String) == (q :: qs)) = false := by
          rw [beq_eq_false_iff_ne]
          simp
          intro hp
          exact absurd hp.symm hq
        rw [if_neg hq, h1]
        simp [hq, List.cons_prefix_cons]

theorem lookupSize_eq_of_mem : ∀ (m : List (List String × Nat)) (F : List String) (v : Nat),
    (m.map Prod.fst).Nodup → (F, v) ∈ m → lookupSize F m = v := by
  intro m
  induction m with
  | nil => simp
  | cons kv rest ih =>
    intro F v hnd hmem
    obtain ⟨k0, v0⟩ := kv
    rw [List.map_cons, List.nodup_cons] at hnd
    rcases List.mem_cons.mp hmem with h | h
    · rw [Prod.mk.injEq] at h
      obtain ⟨h1, h2⟩ := h
      rw [lookupSize, if_pos h1.symm]
      exact h2.symm
    · by_cases hk : k0 = F
      · subst hk
        exact absurd (List.mem_map_of_mem Prod.fst h) hnd.1
      · rw [lookupSize, if_neg hk]
        exact ih F v hnd.2 h

/-! ## The loop invariant of `gather_stats` -/

theorem sumSizes_append (l₁ l₂ : List (List String × Nat)) :
    sumSizes (l₁ ++ l₂) = sumSizes l₁ + sumSizes l₂ := by
  simp [sumSizes]

theorem recompute_append_one (F : List String) (files : List (List String × Nat))
    (path : List String) (sz : Nat) :
    recompute F (files ++ [(path, sz)]) =
      recompute F files + if F <+: path ∧ F ≠ path then sz else 0 := by
  unfold recompute
  rw [List.filter_append, sumSizes_append]
  congr 1
  by_cases h1 : F <+: path
  · by_cases h2 : F = path
    · simp [List.filter_cons, h1, h2, sumSizes]
    · simp [List.filter_cons, h1, h2, sumSizes]
  · have : ¬ (F <+: path ∧ F ≠ path) := fun h => h1 h.1
    simp [List.filter_cons, h1, this, sumSizes]

/-- A folder is a proper ancestor of the file path `parts ++ [f]` exactly when
it is a prefix of the directory part `parts`. -/
theorem proper_anc_iff (F parts : List String) (f : String) :
    (F <+: parts ++ [f] ∧ F ≠ parts ++ [f]) ↔ F <+: parts := by
  constructor
  · rintro ⟨h, hne⟩
    have hlen : F.length ≤ parts.length := by
      have h1 := h.length_le
      rw [List.length_append, List.length_singleton] at h1
      rcases Nat.lt_or_ge F.length (parts.length + 1) with h2 | h2
      · omega
      · have hEq : F.length = (parts ++ [f]).length := by
          rw [List.length_append, List.length_singleton]; omega
        exact absurd (h.eq_of_length hEq) hne
    rw [List.prefix_iff_eq_take] at h
    rw [List.take_append_of_le_length hlen] at h
    rw [List.prefix_iff_eq_take]
    exact h
  · intro h
    refine ⟨h.trans (List.prefix_append parts [f]), ?_⟩
    intro hEq
    have hl := h.length_le
    rw [hEq, List.length_append, List.length_singleton] at hl
    omega

theorem foldl_preserve {α β : Type} (P : α → Prop) (f : α → β → α)
    (step : ∀ a b, P a → P (f a b)) : ∀ (l : List β) (a : α), P a → P (l.foldl f a) := by
  intro l
  induction l with
  | nil => intro a h; exact h
  | cons b bs ih => intro a h; exact ih _ (step a b h)

theorem inv_initAcc : Inv initAcc := by
  refine ⟨List.nodup_nil, by simp [initAcc], ?_, rfl, rfl⟩
  intro F _
  rfl

theorem inv_processFile (ig parts : List String) (acc : ScanAcc) (f : String × Option Nat)
    (h : Inv acc) : Inv (processFile ig parts acc f) := by
  obtain ⟨hnd, hne, hlook, hbytes, hcount⟩ := h
  unfold processFile
  split
  · exact ⟨hnd, hne, hlook, hbytes, hcount⟩
  · split
    · exact ⟨hnd, hne, hlook, hbytes, hcount⟩
    · next sz _ =>
      refine ⟨?_, ?_, ?_, ?_, ?_⟩
      · show ((bumpAncestors acc.folder_sizes parts sz).map Prod.fst).Nodup
        rw [bumpAncestors_eq_foldl]
        exact nodup_keys_foldl_bump sz (prefList parts) acc.folder_sizes hnd
      · show ∀ kv ∈ bumpAncestors acc.folder_sizes parts sz, kv.1 ≠ []
        rw [bumpAncestors_eq_foldl]
        exact ne_nil_keys_foldl_bump sz (prefList parts) acc.folder_sizes
          (fun k hk => ne_nil_of_mem_prefList hk) hne
      · intro F hF
        show lookupSize F (bumpAncestors acc.folder_sizes parts sz) =
          recompute F (acc.file_sizes ++ [(parts ++ [f.1], sz)])
        rw [bumpAncestors_eq_foldl, lookupSize_foldl_bump, count_prefList,
          recompute_append_one, hlook F hF]
        congr 1
        by_cases h : F <+: parts
        · rw [if_pos ⟨hF, h⟩, if_pos ((proper_anc_iff F parts f.1).mpr h)]
          ring
        · rw [if_neg (fun hc => h hc.2),
            if_neg (fun hc => h ((proper_anc_iff F parts f.1).mp hc))]
          ring
      · show acc.total_bytes + sz = sumSizes (acc.file_sizes ++ [(parts ++ [f.1], sz)])
        rw [sumSizes_append, hbytes]
        simp [sumSizes]
      · show acc.total_files + 1 = (acc.file_sizes ++ [(parts ++ [f.1], sz)]).length
        rw [List.length_append, hcount]
        rfl

theorem inv_processTriple (ig : List String) (acc : ScanAcc)
    (t : List String × List (String × Option Nat)) (h : Inv acc) :
    Inv (processTriple ig acc t) :=
  foldl_preserve Inv (processFile ig t.1) (inv_processFile ig t.1) t.2 acc h

theorem inv_gatherAcc (ig : List String) (root : Entry) : Inv (gatherAcc ig root) :=
  foldl_preserve Inv (processTriple ig) (inv_processTriple ig) (walkEntry ig [] root)
    initAcc inv_initAcc

/-- **C1.** For every root directory and exclusion set, every key `F` of the
Aggregator's FolderSizeTable stores exactly the sum of the sizes of the
recorded (non-excluded, successfully stat-ed) files whose relative path has
`F` as a proper ancestor prefix — each file is credited to every ancestor
folder from its immediate parent up to, but not including, the root — and the
root (the empty segment sequence) is never a key of the table. -/
theorem folderSizeTable_recompute (ig : List String) (root : Entry) (F : List String) (v : Nat)
    (h : (F, v) ∈ (gatherAcc ig root).folder_sizes) :
    F ≠ [] ∧ v = recompute F (gatherAcc ig root).file_sizes := by
  obtain ⟨hnd, hne, hlook, -, -⟩ := inv_gatherAcc ig root
  have hF : F ≠ [] := hne (F, v) h
  refine ⟨hF, ?_⟩
  rw [← hlook F hF, lookupSize_eq_of_mem _ F v hnd h]

/-- Witness for **C1**: on the specification's scenario tree, the folder
`src` is a key with value 800, which the brute-force recomputation
confirms. -/
theorem folderSizeTable_recompute_witness :
    (["src"] : List String) ≠ [] ∧ 800 = recompute ["src"] (gatherAcc [] T0).file_sizes :=
  folderSizeTable_recompute [] T0 ["src"] 800 (by decide)

/-- **C3.** For every root directory and exclusion set, `total_bytes` equals
the sum of the sizes of all recorded FileRecords and `total_files` equals
their number. -/
theorem totals_match_fileRecords (ig : List String) (root : Entry) :
    (gather_stats ig root).total_bytes = sumSizes (gatherAcc ig root).file_sizes ∧
    (gather_stats ig root).total_files = (gatherAcc ig root).file_sizes.length := by
  obtain ⟨-, -, -, hb, hc⟩ := inv_gatherAcc ig root
  exact ⟨hb, hc⟩

/-! ## The children comparator of the Tree Renderer -/

theorem keyLe_total (a b : Entry) : keyLe a b = true ∨ keyLe b a = true := by
  unfold keyLe
  cases ha : a.isFile <;> cases hb : b.isFile <;>
    simp_all [Bool.not_eq_true', decide_eq_false_iff_not, not_lt]
  · exact le_total _ _
  · exact le_total _ _

theorem keyLe_trans (a b c : Entry) :
    keyLe a b = true → keyLe b c = true → keyLe a c = true := by
  unfold keyLe
  cases ha : a.isFile <;> cases hb : b.isFile <;> cases hc : c.isFile <;>
    simp_all [Bool.not_eq_true', decide_eq_false_iff_not, not_lt]
  · exact fun h1 h2 => le_trans h1 h2
  · exact fun h1 h2 => le_trans h1 h2

/-- What a single `keyLe`-ordered pair means: the earlier entry is a
directory or the later one is a file (directories first), and entries in the
same group are in case-insensitive alphabetical order. -/
theorem keyLe_spec {a b : Entry} (h : keyLe a b = true) :
    (a.isDir = true ∨ b.isFile = true) ∧
      (a.isFile = b.isFile → a.name.toLower ≤ b.name.toLower) := by
  unfold keyLe at h
  by_cases hf : a.isFile = b.isFile
  · rw [if_pos hf] at h
    refine ⟨?_, fun _ => ?_⟩
    · cases ha : a.isFile
      · exact Or.inl (by simp [Entry.isDir, ha])
      · exact Or.inr (hf ▸ ha)
    · simpa [Bool.not_eq_true', decide_eq_false_iff_not, not_lt] using h
  · rw [if_neg hf] at h
    have ha : a.isFile = false := by simpa using h
    exact ⟨Or.inl (by simp [Entry.isDir, ha]), fun hc => absurd hc hf⟩

theorem keyLe_congr {a a' b b' : Entry} (h1 : a.name = a'.name) (h2 : a.isFile = a'.isFile)
    (h3 : b.name = b'.name) (h4 : b.isFile = b'.isFile) : keyLe a b = keyLe a' b' := by
  unfold keyLe
  rw [h1, h2, h3, h4]

theorem sortEntries_map (f : Entry → Entry) (hname : ∀ e, (f e).name = e.name)
    (hfile : ∀ e, (f e).isFile = e.isFile) (L : List Entry) :
    sortEntries (L.map f) = (sortEntries L).map f :=
  sortStable_map keyLe keyLe f
    (fun x y => keyLe_congr (hname x) (hfile x) (hname y) (hfile y)) L

theorem sortEntries_filter (P : Entry → Bool) (L : List Entry) :
    sortEntries (L.filter P) = (sortEntries L).filter P :=
  sortStable_filter keyLe_total keyLe_trans P L

theorem filter_name_map (f : Entry → Entry) (hname : ∀ e, (f e).name = e.name)
    (ig : List String) (L : List Entry) :
    (L.map f).filter (fun e => decide (e.name ∉ ig)) =
      (L.filter (fun e => decide (e.name ∉ ig))).map f := by
  induction L with
  | nil => rfl
  | cons e es ih =>
    rw [List.map_cons, List.filter_cons, List.filter_cons]
    have hd : decide ((f e).name ∉ ig) = decide (e.name ∉ ig) := by rw [hname]
    rw [hd]
    by_cases h : decide (e.name ∉ ig) = true
    · rw [if_pos h, if_pos h, List.map_cons, ih]
    · rw [if_neg h, if_neg h, ih]

theorem filter_idem {α : Type} (P : α → Bool) (L : List α) :
    (L.filter P).filter P = L.filter P := by
  induction L with
  | nil => rfl
  | cons e es ih => by_cases h : P e = true <;> simp [List.filter_cons, h, ih]

/-! ## Invariance of the Tree Renderer under name-preserving tree maps -/

theorem renderChildren_map (ig : List String) (k : Nat) (f : Entry → Entry)
    (hname : ∀ e, (f e).name = e.name) (hfile : ∀ e, (f e).isFile = e.isFile)
    (hrec : ∀ e pre, renderEntry ig pre k (f e) = renderEntry ig pre k e) :
    ∀ (L : List Entry) (pre : String),
      renderChildren ig pre k (L.map f) = renderChildren ig pre k L := by
  have hdir : ∀ e : Entry, (f e).isDir = e.isDir := by
    intro e
    rw [Entry.isDir, Entry.isDir, hfile]
  intro L
  induction L with
  | nil => intro pre; rfl
  | cons e es ih =>
    intro pre
    cases es with
    | nil =>
      show renderChildren ig pre k [f e] = renderChildren ig pre k [e]
      simp only [renderChildren, hname, hdir, hrec]
    | cons e' es' =>
      show renderChildren ig pre k (f e :: f e' :: es'.map f) = _
      simp only [renderChildren, hname, hdir, hrec]
      rw [show f e' :: es'.map f = (e' :: es').map f from rfl, ih]

theorem prune_name (ig : List String) (e : Entry) : (prune ig e).name = e.name := by
  cases e <;> rfl

theorem prune_isFile (ig : List String) (e : Entry) : (prune ig e).isFile = e.isFile := by
  cases e <;> rfl

theorem pruneList_eq (ig : List String) : ∀ cs : List Entry,
    pruneList ig cs = (cs.filter (fun e => decide (e.name ∉ ig))).map (prune ig) := by
  intro cs
  induction cs with
  | nil => rfl
  | cons e es ih => by_cases h : e.name ∈ ig <;> simp [pruneList, h, ih]

theorem scrubDirs_name (e : Entry) : (scrubDirs e).name = e.name := by
  cases e with
  | file n s => rfl
  | dir n r cs => cases r <;> rfl

theorem scrubDirs_isFile (e : Entry) : (scrubDirs e).isFile = e.isFile := by
  cases e with
  | file n s => rfl
  | dir n r cs => cases r <;> rfl

theorem scrubDirsList_eq (cs : List Entry) : scrubDirsList cs = cs.map scrubDirs := by
  induction cs with
  | nil => rfl
  | cons e es ih => simp [scrubDirsList, ih]

theorem truncTree_name (k : Nat) (e : Entry) : (truncTree k e).name = e.name := by
  cases e with
  | file n s => cases k <;> rfl
  | dir n r cs => cases k <;> rfl

theorem truncTree_isFile (k : Nat) (e : Entry) : (truncTree k e).isFile = e.isFile := by
  cases e with
  | file n s => cases k <;> rfl
  | dir n r cs => cases k <;> rfl

theorem truncList_eq (k : Nat) (cs : List Entry) : truncList k cs = cs.map (truncTree k) := by
  induction cs with
  | nil => rfl
  | cons e es ih => simp [truncList, ih]

/-- Rendering never sees anything below a pruned excluded subtree: the
renderer's output on the pruned tree is its output on the original tree. -/
theorem renderEntry_prune (ig : List String) :
    ∀ (k : Nat) (e : Entry) (pre : String),
      renderEntry ig pre k (prune ig e) = renderEntry ig pre k e := by
  intro k
  induction k with
  | zero =>
    intro e pre
    cases e with
    | file n s => rfl
    | dir n r cs => cases r <;> simp [prune, renderEntry]
  | succ k ih =>
    intro e pre
    cases e with
    | file n s => rfl
    | dir n r cs =>
      cases r with
      | false => simp [prune, renderEntry]
      | true =>
        show renderEntry ig pre (k + 1) (.dir n true (pruneList ig cs)) = _
        simp only [renderEntry]
        rw [pruneList_eq,
          sortEntries_map (prune ig) (prune_name ig) (prune_isFile ig),
          filter_name_map (prune ig) (prune_name ig),
          ← sortEntries_filter, ← sortEntries_filter, filter_idem, sortEntries_filter]
        exact renderChildren_map ig k (prune ig) (prune_name ig) (prune_isFile ig)
          (fun e pre => ih e pre) _ pre

/-- Rendering treats an unreadable directory exactly as an empty one. -/
theorem renderEntry_scrubDirs (ig : List String) :
    ∀ (k : Nat) (e : Entry) (pre : String),
      renderEntry ig pre k (scrubDirs e) = renderEntry ig pre k e := by
  intro k
  induction k with
  | zero =>
    intro e pre
    cases e with
    | file n s => rfl
    | dir n r cs => cases r <;> simp [scrubDirs, renderEntry]
  | succ k ih =>
    intro e pre
    cases e with
    | file n s => rfl
    | dir n r cs =>
      cases r with
      | false =>
        show renderEntry ig pre (k + 1) (.dir n true []) =
          renderEntry ig pre (k + 1) (.dir n false cs)
        simp [renderEntry, sortEntries, sortStable, renderChildren]
      | true =>
        show renderEntry ig pre (k + 1) (.dir n true (scrubDirsList cs)) = _
        simp only [renderEntry]
        rw [scrubDirsList_eq,
          sortEntries_map scrubDirs scrubDirs_name scrubDirs_isFile,
          filter_name_map scrubDirs scrubDirs_name]
        exact renderChildren_map ig k scrubDirs scrubDirs_name scrubDirs_isFile
          (fun e pre => ih e pre) _ pre

/-- Rendering at depth limit `k` never sees anything below level `k`: the
output on the truncated tree is the output on the original tree. -/
theorem renderEntry_trunc (ig : List String) :
    ∀ (k : Nat) (e : Entry) (pre : String),
      renderEntry ig pre k (truncTree k e) = renderEntry ig pre k e := by
  intro k
  induction k with
  | zero =>
    intro e pre
    cases e with
    | file n s => rfl
    | dir n r cs => cases r <;> simp [truncTree, renderEntry]
  | succ k ih =>
    intro e pre
    cases e with
    | file n s => rfl
    | dir n r cs =>
      cases r with
      | false => simp [truncTree, renderEntry]
      | true =>
        show renderEntry ig pre (k + 1) (.dir n true (truncList k cs)) = _
        simp only [renderEntry]
        rw [truncList_eq,
          sortEntries_map (truncTree k) (truncTree_name k) (truncTree_isFile k),
          filter_name_map (truncTree k) (truncTree_name k)]
        exact renderChildren_map ig k (truncTree k) (truncTree_name k) (truncTree_isFile k)
          (fun e pre => ih e pre) _ pre

/-! ## Invariance of the Aggregator under pruning and scrubbing -/

theorem filesOf_cons_file (n : String) (s : Option Nat) (es : List Entry) :
    filesOf (.file n s :: es) = (n, s) :: filesOf es := rfl

theorem filesOf_cons_dir (n : String) (r : Bool) (cs es : List Entry) :
    filesOf (.dir n r cs :: es) = filesOf es := rfl

theorem filesOf_pruneList (ig : List String) : ∀ cs : List Entry,
    filesOf (pruneList ig cs) = (filesOf cs).filter (fun f => decide (f.1 ∉ ig)) := by
  intro cs
  induction cs with
  | nil => rfl
  | cons e es ih =>
    cases e with
    | file n s =>
      by_cases h : n ∈ ig
      · rw [show pruneList ig (.file n s :: es) = pruneList ig es from by
          simp [pruneList, Entry.name, h]]
        rw [ih, filesOf_cons_file, List.filter_cons, if_neg (by simp [h])]
      · rw [show pruneList ig (.file n s :: es) = .file n s :: pruneList ig es from by
          simp [pruneList, prune, Entry.name, h]]
        rw [filesOf_cons_file, filesOf_cons_file, List.filter_cons, if_pos (by simp [h]), ih]
    | dir n r cs2 =>
      by_cases h : n ∈ ig
      · rw [show pruneList ig (.dir n r cs2 :: es) = pruneList ig es from by
          simp [pruneList, Entry.name, h]]
        rw [ih, filesOf_cons_dir]
      · rw [show pruneList ig (.dir n r cs2 :: es) =
            prune ig (.dir n r cs2) :: pruneList ig es from by
          simp [pruneList, Entry.name, h]]
        rw [show prune ig (.dir n r cs2) = .dir n r (pruneList ig cs2) from by simp [prune]]
        rw [filesOf_cons_dir, filesOf_cons_dir, ih]

theorem filesOf_scrubList : ∀ cs : List Entry,
    filesOf (scrubList cs) = (filesOf cs).filter (fun f => f.2.isSome) := by
  intro cs
  induction cs with
  | nil => rfl
  | cons e es ih =>
    cases e with
    | file n s =>
      cases s with
      | none =>
        rw [show scrubList (.file n none :: es) = scrubList es from by simp [scrubList]]
        rw [ih, filesOf_cons_file, List.filter_cons, if_neg (by simp)]
      | some sz =>
        rw [show scrubList (.file n (some sz) :: es) =
            .file n (some sz) :: scrubList es from by simp [scrubList]]
        rw [filesOf_cons_file, filesOf_cons_file, List.filter_cons, if_pos (by simp), ih]
    | dir n r cs2 =>
      rw [show scrubList (.dir n r cs2 :: es) =
          scrubStats (.dir n r cs2) :: scrubList es from by simp [scrubList]]
      cases r with
      | false =>
        rw [show scrubStats (.dir n false cs2) = .dir n true [] from by simp [scrubStats]]
        rw [filesOf_cons_dir, filesOf_cons_dir, ih]
      | true =>
        rw [show scrubStats (.dir n true cs2) = .dir n true (scrubList cs2) from by
          simp [scrubStats]]
        rw [filesOf_cons_dir, filesOf_cons_dir, ih]

theorem foldl_processFile_filter_ig (ig parts : List String) :
    ∀ (files : List (String × Option Nat)) (acc : ScanAcc),
    (files.filter (fun f => decide (f.1 ∉ ig))).foldl (processFile ig parts) acc =
      files.foldl (processFile ig parts) acc := by
  intro files
  induction files with
  | nil => intro acc; rfl
  | cons f fs ih =>
    intro acc
    rw [List.filter_cons]
    by_cases h : f.1 ∈ ig
    · have hf : processFile ig parts acc f = acc := by
        unfold processFile
        rw [if_pos h]
      rw [if_neg (by simp [h]), List.foldl_cons, hf]
      exact ih acc
    · rw [if_pos (by simp [h]), List.foldl_cons, List.foldl_cons]
      exact ih _

theorem foldl_processFile_filter_stat (ig parts : List String) :
    ∀ (files : List (String × Option Nat)) (acc : ScanAcc),
    (files.filter (fun f => f.2.isSome)).foldl (processFile ig parts) acc =
      files.foldl (processFile ig parts) acc := by
  intro files
  induction files with
  | nil => intro acc; rfl
  | cons f fs ih =>
    intro acc
    rw [List.filter_cons]
    by_cases h : f.2.isSome = true
    · rw [if_pos h, List.foldl_cons, List.foldl_cons]
      exact ih _
    · have hnone : f.2 = none := Option.not_isSome_iff_eq_none.mp h
      have hf : processFile ig parts acc f = acc := by
        unfold processFile
        split
        · rfl
        · split
          · rfl
          · next sz heq => rw [heq] at hnone; cases hnone
      rw [if_neg h, List.foldl_cons, hf]
      exact ih acc

mutual
theorem fold_walk_prune (ig : List String) (e : Entry) :
    ∀ (parts : List String) (acc : ScanAcc),
      (walkEntry ig parts (prune ig e)).foldl (processTriple ig) acc =
        (walkEntry ig parts e).foldl (processTriple ig) acc := by
  match e with
  | .file n s => intro parts acc; rfl
  | .dir n false cs => intro parts acc; rfl
  | .dir n true cs =>
    intro parts acc
    rw [show prune ig (.dir n true cs) = .dir n true (pruneList ig cs) from by simp [prune]]
    rw [show walkEntry ig parts (Entry.dir n true (pruneList ig cs)) =
        (parts, filesOf (pruneList ig cs)) :: walkChildren ig parts (pruneList ig cs) from by
      simp [walkEntry]]
    rw [show walkEntry ig parts (Entry.dir n true cs) =
        (parts, filesOf cs) :: walkChildren ig parts cs from by simp [walkEntry]]
    rw [List.foldl_cons, List.foldl_cons]
    have h1 : processTriple ig acc (parts, filesOf (pruneList ig cs)) =
        processTriple ig acc (parts, filesOf cs) := by
      show (filesOf (pruneList ig cs)).foldl (processFile ig parts) acc = _
      rw [filesOf_pruneList, foldl_processFile_filter_ig]
      rfl
    rw [h1]
    exact fold_walkChildren_prune ig cs parts _

theorem fold_walkChildren_prune (ig : List String) (cs : List Entry) :
    ∀ (parts : List String) (acc : ScanAcc),
      (walkChildren ig parts (pruneList ig cs)).foldl (processTriple ig) acc =
        (walkChildren ig parts cs).foldl (processTriple ig) acc := by
  match cs with
  | [] => intro parts acc; rfl
  | .file n s :: es =>
    intro parts acc
    rw [show walkChildren ig parts (.file n s :: es) = walkChildren ig parts es from by
      simp [walkChildren]]
    by_cases h : n ∈ ig
    · rw [show pruneList ig (.file n s :: es) = pruneList ig es from by
        simp [pruneList, Entry.name, h]]
      exact fold_walkChildren_prune ig es parts acc
    · rw [show pruneList ig (.file n s :: es) = .file n s :: pruneList ig es from by
        simp [pruneList, prune, Entry.name, h]]
      rw [show walkChildren ig parts (.file n s :: pruneList ig es) =
          walkChildren ig parts (pruneList ig es) from by simp [walkChildren]]
      exact fold_walkChildren_prune ig es parts acc
  | .dir n r cs2 :: es =>
    intro parts acc
    rw [show walkChildren ig parts (.dir n r cs2 :: es) =
        (if n ∈ ig then [] else walkEntry ig (parts ++ [n]) (.dir n r cs2)) ++
          walkChildren ig parts es from by simp [walkChildren]]
    by_cases h : n ∈ ig
    · rw [show pruneList ig (.dir n r cs2 :: es) = pruneList ig es from by
        simp [pruneList, Entry.name, h]]
      rw [if_pos h, List.nil_append]
      exact fold_walkChildren_prune ig es parts acc
    · rw [show pruneList ig (.dir n r cs2 :: es) =
          prune ig (.dir n r cs2) :: pruneList ig es from by
        simp [pruneList, Entry.name, h]]
      rw [show prune ig (.dir n r cs2) = .dir n r (pruneList ig cs2) from by simp [prune]]
      rw [show walkChildren ig parts (.dir n r (pruneList ig cs2) :: pruneList ig es) =
          (if n ∈ ig then [] else walkEntry ig (parts ++ [n]) (.dir n r (pruneList ig cs2))) ++
            walkChildren ig parts (pruneList ig es) from by simp [walkChildren]]
      rw [if_neg h, if_neg h, List.foldl_append, List.foldl_append]
      rw [show (Entry.dir n r (pruneList ig cs2)) = prune ig (.dir n r cs2) from by simp [prune]]
      rw [fold_walk_prune ig (.dir n r cs2) (parts ++ [n]) acc]
      exact fold_walkChildren_prune ig es parts _
end

mutual
theorem fold_walk_scrub (ig : List String) (e : Entry) :
    ∀ (parts : List String) (acc : ScanAcc),
      (walkEntry ig parts (scrubStats e)).foldl (processTriple ig) acc =
        (walkEntry ig parts e).foldl (processTriple ig) acc := by
  match e with
  | .file n s => intro parts acc; rfl
  | .dir n false cs =>
    intro parts acc
    rw [show scrubStats (.dir n false cs) = .dir n true [] from by simp [scrubStats]]
    rw [show walkEntry ig parts (Entry.dir n true []) =
        [(parts, filesOf ([] : List Entry))] from by simp [walkEntry, walkChildren]]
    rfl
  | .dir n true cs =>
    intro parts acc
    rw [show scrubStats (.dir n true cs) = .dir n true (scrubList cs) from by simp [scrubStats]]
    rw [show walkEntry ig parts (Entry.dir n true (scrubList cs)) =
        (parts, filesOf (scrubList cs)) :: walkChildren ig parts (scrubList cs) from by
      simp [walkEntry]]
    rw [show walkEntry ig parts (Entry.dir n true cs) =
        (parts, filesOf cs) :: walkChildren ig parts cs from by simp [walkEntry]]
    rw [List.foldl_cons, List.foldl_cons]
    have h1 : processTriple ig acc (parts, filesOf (scrubList cs)) =
        processTriple ig acc (parts, filesOf cs) := by
      show (filesOf (scrubList cs)).foldl (processFile ig parts) acc = _
      rw [filesOf_scrubList, foldl_processFile_filter_stat]
      rfl
    rw [h1]
    exact fold_walkChildren_scrub ig cs parts _

theorem fold_walkChildren_scrub (ig : List String) (cs : List Entry) :
    ∀ (parts : List String) (acc : ScanAcc),
      (walkChildren ig parts (scrubList cs)).foldl (processTriple ig) acc =
        (walkChildren ig parts cs).foldl (processTriple ig) acc := by
  match cs with
  | [] => intro parts acc; rfl
  | .file n none :: es =>
    intro parts acc
    rw [show scrubList (.file n none :: es) = scrubList es from by simp [scrubList]]
    rw [show walkChildren ig parts (.file n none :: es) = walkChildren ig parts es from by
      simp [walkChildren]]
    exact fold_walkChildren_scrub ig es parts acc
  | .file n (some sz) :: es =>
    intro parts acc
    rw [show scrubList (.file n (some sz) :: es) = .file n (some sz) :: scrubList es from by
      simp [scrubList]]
    rw [show walkChildren ig parts (.file n (some sz) :: scrubList es) =
        walkChildren ig parts (scrubList es) from by simp [walkChildren]]
    rw [show walkChildren ig parts (.file n (some sz) :: es) = walkChildren ig parts es from by
      simp [walkChildren]]
    exact fold_walkChildren_scrub ig es parts acc
  | .dir n r cs2 :: es =>
    intro parts acc
    rw [show scrubList (.dir n r cs2 :: es) = scrubStats (.dir n r cs2) :: scrubList es from by
      simp [scrubList]]
    rw [show walkChildren ig parts (.dir n r cs2 :: es) =
        (if n ∈ ig then [] else walkEntry ig (parts ++ [n]) (.dir n r cs2)) ++
          walkChildren ig parts es from by simp [walkChildren]]
    cases r with
    | false =>
      rw [show scrubStats (.dir n false cs2) = .dir n true [] from by simp [scrubStats]]
      rw [show walkChildren ig parts (.dir n true [] :: scrubList es) =
          (if n ∈ ig then [] else walkEntry ig (parts ++ [n]) (.dir n true [])) ++
            walkChildren ig parts (scrubList es) from by simp [walkChildren]]
      by_cases h : n ∈ ig
      · rw [if_pos h, if_pos h, List.nil_append, List.nil_append]
        exact fold_walkChildren_scrub ig es parts acc
      · rw [if_neg h, if_neg h]
        rw [show walkEntry ig (parts ++ [n]) (Entry.dir n true []) =
            [(parts ++ [n], filesOf ([] : List Entry))] from by simp [walkEntry, walkChildren]]
        rw [show walkEntry ig (parts ++ [n]) (Entry.dir n false cs2) = [] from by
          simp [walkEntry]]
        rw [List.foldl_append, List.foldl_append]
        exact fold_walkChildren_scrub ig es parts _
    | true =>
      rw [show scrubStats (.dir n true cs2) = .dir n true (scrubList cs2) from by
        simp [scrubStats]]
      rw [show walkChildren ig parts (.dir n true (scrubList cs2) :: scrubList es) =
          (if n ∈ ig then [] else walkEntry ig (parts ++ [n]) (.dir n true (scrubList cs2))) ++
            walkChildren ig parts (scrubList es) from by simp [walkChildren]]
      by_cases h : n ∈ ig
      · rw [if_pos h, if_pos h, List.nil_append, List.nil_append]
        exact fold_walkChildren_scrub ig es parts acc
      · rw [if_neg h, if_neg h, List.foldl_append, List.foldl_append]
        rw [show (Entry.dir n true (scrubList cs2)) = scrubStats (.dir n true cs2) from by
          simp [scrubStats]]
        rw [fold_walk_scrub ig (.dir n true cs2) (parts ++ [n]) acc]
        exact fold_walkChildren_scrub ig es parts _
end

theorem gatherAcc_prune (ig : List String) (root : Entry) :
    gatherAcc ig (prune ig root) = gatherAcc ig root :=
  fold_walk_prune ig root [] initAcc

theorem gatherAcc_scrub (ig : List String) (root : Entry) :
    gatherAcc ig (scrubStats root) = gatherAcc ig root :=
  fold_walk_scrub ig root [] initAcc

/-! ## No excluded name ever reaches the records -/

mutual
theorem walk_parts_ok (ig : List String) (e : Entry) :
    ∀ (parts : List String), (∀ seg ∈ parts, seg ∉ ig) →
      ∀ t ∈ walkEntry ig parts e, ∀ seg ∈ t.1, seg ∉ ig := by
  match e with
  | .file n s =>
    intro parts _ t ht
    simp [walkEntry] at ht
  | .dir n false cs =>
    intro parts _ t ht
    simp [walkEntry] at ht
  | .dir n true cs =>
    intro parts hp t ht
    rw [show walkEntry ig parts (Entry.dir n true cs) =
        (parts, filesOf cs) :: walkChildren ig parts cs from by simp [walkEntry]] at ht
    rcases List.mem_cons.mp ht with rfl | ht
    · exact hp
    · exact walkChildren_parts_ok ig cs parts hp t ht

theorem walkChildren_parts_ok (ig : List String) (cs : List Entry) :
    ∀ (parts : List String), (∀ seg ∈ parts, seg ∉ ig) →
      ∀ t ∈ walkChildren ig parts cs, ∀ seg ∈ t.1, seg ∉ ig := by
  match cs with
  | [] =>
    intro parts _ t ht
    simp [walkChildren] at ht
  | .file n s :: es =>
    intro parts hp t ht
    rw [show walkChildren ig parts (.file n s :: es) = walkChildren ig parts es from by
      simp [walkChildren]] at ht
    exact walkChildren_parts_ok ig es parts hp t ht
  | .dir n r cs2 :: es =>
    intro parts hp t ht
    rw [show walkChildren ig parts (.dir n r cs2 :: es) =
        (if n ∈ ig then [] else walkEntry ig (parts ++ [n]) (.dir n r cs2)) ++
          walkChildren ig parts es from by simp [walkChildren]] at ht
    rcases List.mem_append.mp ht with h1 | h1
    · by_cases h : n ∈ ig
      · rw [if_pos h] at h1
        cases h1
      · rw [if_neg h] at h1
        refine walk_parts_ok ig (.dir n r cs2) (parts ++ [n]) ?_ t h1
        intro seg hs
        rcases List.mem_append.mp hs with hs | hs
        · exact hp seg hs
        · rw [List.mem_singleton] at hs
          exact hs ▸ h
    · exact walkChildren_parts_ok ig es parts hp t h1
end

theorem subset_of_mem_prefList {parts q : List String} (hq : q ∈ prefList parts) :
    ∀ seg ∈ q, seg ∈ parts := by
  unfold prefList at hq
  obtain ⟨i, _, rfl⟩ := List.mem_map.mp hq
  intro seg hs
  exact List.take_subset _ _ hs

theorem fst_mem_foldl_bump (sz : Nat) :
    ∀ (ks : List (List String)) (m : List (List String × Nat))
      (kv : List String × Nat), kv ∈ ks.foldl (fun t k => bump t k sz) m →
      kv.1 ∈ m.map Prod.fst ∨ kv.1 ∈ ks := by
  intro ks
  induction ks with
  | nil =>
    intro m kv h
    exact Or.inl (List.mem_map_of_mem Prod.fst h)
  | cons k ks ih =>
    intro m kv h
    rcases ih _ kv h with h' | h'
    · rw [keys_bump] at h'
      by_cases hk : k ∈ m.map Prod.fst
      · rw [if_pos hk] at h'
        exact Or.inl h'
      · rw [if_neg hk] at h'
        rcases List.mem_append.mp h' with h'' | h''
        · exact Or.inl h''
        · right
          rw [List.mem_singleton] at h''
          simp [h'']
    · right
      simp [h']

theorem foldl_preserve_mem {α β : Type} (P : α → Prop) (Q : β → Prop) (f : α → β → α)
    (step : ∀ a b, Q b → P a → P (f a b)) :
    ∀ (l : List β), (∀ b ∈ l, Q b) → ∀ a, P a → P (l.foldl f a) := by
  intro l
  induction l with
  | nil => intro _ a h; exact h
  | cons b bs ih =>
    intro hq a h
    exact ih (fun x hx => hq x (by simp [hx])) _ (step a b (hq b (by simp)) h)

theorem segOK_processFile (ig parts : List String) (hp : ∀ seg ∈ parts, seg ∉ ig)
    (acc : ScanAcc) (f : String × Option Nat) (h : SegOK ig acc) :
    SegOK ig (processFile ig parts acc f) := by
  obtain ⟨hfs, hfo⟩ := h
  unfold processFile
  split
  · exact ⟨hfs, hfo⟩
  · next hnot =>
    split
    · exact ⟨hfs, hfo⟩
    · next sz heq =>
      constructor
      · intro fs hmem
        rcases List.mem_append.mp hmem with hm | hm
        · exact hfs fs hm
        · rw [List.mem_singleton] at hm
          subst hm
          intro seg hs
          rcases List.mem_append.mp hs with hs | hs
          · exact hp seg hs
          · rw [List.mem_singleton] at hs
            exact hs ▸ hnot
      · intro kv hmem
        rw [bumpAncestors_eq_foldl] at hmem
        rcases fst_mem_foldl_bump sz (prefList parts) acc.folder_sizes kv hmem with hm | hm
        · obtain ⟨kv', hkv', hfst⟩ := List.mem_map.mp hm
          intro seg hs
          rw [← hfst] at hs
          exact hfo kv' hkv' seg hs
        · intro seg hs
          exact hp seg (subset_of_mem_prefList hm seg hs)

theorem segOK_processTriple (ig : List String) (acc : ScanAcc)
    (t : List String × List (String × Option Nat)) (hq : ∀ seg ∈ t.1, seg ∉ ig)
    (h : SegOK ig acc) : SegOK ig (processTriple ig acc t) :=
  foldl_preserve (SegOK ig) (processFile ig t.1)
    (fun a b => segOK_processFile ig t.1 hq a b) t.2 acc h

theorem segOK_gatherAcc (ig : List String) (root : Entry) : SegOK ig (gatherAcc ig root) :=
  foldl_preserve_mem (SegOK ig) (fun t => ∀ seg ∈ t.1, seg ∉ ig) (processTriple ig)
    (fun a t hq h => segOK_processTriple ig a t hq h)
    (walkEntry ig [] root) (walk_parts_ok ig root [] (by simp))
    initAcc ⟨by simp [initAcc], by simp [initAcc]⟩

/-! ## The exclusion, depth and error-handling claims -/

/-- **C2.** Exclusion is sound and identical in both traversals: pruning every
excluded-named entry (at every depth) from the tree changes neither the
Aggregator's accumulator (totals, FileRecords, FolderSizeTable, language
counts) nor its final statistics nor the Tree Renderer's output, so nothing
under an excluded directory and no excluded-named file is ever counted or
rendered; moreover no recorded file path and no folder key contains an
excluded name as a segment. -/
theorem exclusion_invariant (ig : List String) (root : Entry) (d : Nat) :
    gatherAcc ig (prune ig root) = gatherAcc ig root ∧
    gather_stats ig (prune ig root) = gather_stats ig root ∧
    scan_tree (prune ig root) d ig = scan_tree root d ig ∧
    (∀ fs ∈ (gatherAcc ig root).file_sizes, ∀ seg ∈ fs.1, seg ∉ ig) ∧
    (∀ kv ∈ (gatherAcc ig root).folder_sizes, ∀ seg ∈ kv.1, seg ∉ ig) := by
  obtain ⟨h1, h2⟩ := segOK_gatherAcc ig root
  refine ⟨gatherAcc_prune ig root, ?_, ?_, h1, h2⟩
  · unfold gather_stats
    rw [gatherAcc_prune]
  · unfold scan_tree
    rw [prune_name, renderEntry_prune]

/-- Witness for **C2**: with exclusion set `{lib}` on the scenario tree, the
recorded file `src/main.go` has no excluded segment. -/
theorem exclusion_invariant_witness : ("src" : String) ∉ (["lib"] : List String) :=
  (exclusion_invariant ["lib"] T0 3).2.2.2.1 (["src", "main.go"], 500) (by decide) "src"
    (by decide)

/-- **C5.** The Tree Renderer's first line is always the root's name with a
trailing separator; with depth 0 the output is exactly that line; and the
output at depth `d` never depends on anything nested deeper than level `d`
(rendering the tree truncated at level `d` gives the same lines). -/
theorem renderer_depth_boundary (root : Entry) (d : Nat) (ig : List String) :
    (scan_tree root d ig).head? = some (root.name ++ "/") ∧
    scan_tree root 0 ig = [root.name ++ "/"] ∧
    scan_tree root d ig = scan_tree (truncTree d root) d ig := by
  refine ⟨rfl, ?_, ?_⟩
  · unfold scan_tree
    rw [show renderEntry ig "" 0 root = [] from by
      cases root with
      | file n s => simp [renderEntry]
      | dir n r cs => cases r <;> simp [renderEntry]]
  · unfold scan_tree
    rw [truncTree_name, renderEntry_trunc]

/-- **C6.** A file whose `stat` raises contributes nothing anywhere (removing
all such files changes no Aggregator output), a directory whose listing
raises is treated exactly as an empty directory by both traversals, and both
traversals are total functions of the tree — no error is ever surfaced. -/
theorem unreadable_skipped (ig : List String) (root : Entry) (d : Nat) :
    gatherAcc ig (scrubStats root) = gatherAcc ig root ∧
    gather_stats ig (scrubStats root) = gather_stats ig root ∧
    scan_tree (scrubDirs root) d ig = scan_tree root d ig := by
  refine ⟨gatherAcc_scrub ig root, ?_, ?_⟩
  · unfold gather_stats
    rw [gatherAcc_scrub]
  · unfold scan_tree
    rw [scrubDirs_name, renderEntry_scrubDirs]

/-! ## Top-N ordering and stability -/

theorem sizeDescLe_total {α : Type} (x y : α × Nat) :
    sizeDescLe x y = true ∨ sizeDescLe y x = true := by
  unfold sizeDescLe
  rcases Nat.le_total y.2 x.2 with h | h
  · left; simpa using h
  · right; simpa using h

theorem sizeDescLe_trans {α : Type} (x y z : α × Nat) :
    sizeDescLe x y = true → sizeDescLe y z = true → sizeDescLe x z = true := by
  unfold sizeDescLe
  intro h1 h2
  simp only [decide_eq_true_eq] at h1 h2 ⊢
  omega

/-- **C4.** The Aggregator's top-N selections are sorted by size descending
(both the top 15 files and the top 10 folders), the stable sort breaks ties
by encounter order in the underlying iteration for both selections (for
every size class, the sorted file list and the sorted folder list restricted
to that size equal the encounter-order lists restricted to it), and in
particular for encounter order `a, b, c, d` with sizes 100, 50, 100, 10 the
top two files are `a` then `c`. -/
theorem topN_sorted_stable (ig : List String) (root : Entry) :
    ((gather_stats ig root).top_files.Pairwise fun x y => y.2 ≤ x.2) ∧
    ((gather_stats ig root).top_folders.Pairwise fun x y => y.2 ≤ x.2) ∧
    (∀ s : Nat,
      (sortStable sizeDescLe (gatherAcc ig root).file_sizes).filter
          (fun x => decide (x.2 = s)) =
        (gatherAcc ig root).file_sizes.filter (fun x => decide (x.2 = s))) ∧
    (∀ s : Nat,
      (sortStable sizeDescLe (gatherAcc ig root).folder_sizes).filter
          (fun x => decide (x.2 = s)) =
        (gatherAcc ig root).folder_sizes.filter (fun x => decide (x.2 = s))) ∧
    (gather_stats [] E4).top_files.take 2 = [(["a"], 100), (["c"], 100)] := by
  refine ⟨?_, ?_, ?_, ?_, by decide⟩
  · have h := sortStable_pairwise sizeDescLe_total sizeDescLe_trans
      (gatherAcc ig root).file_sizes
    have h2 := List.Pairwise.sublist (List.take_sublist 15 _) h
    exact h2.imp fun hxy => by simpa [sizeDescLe] using hxy
  · have h := sortStable_pairwise sizeDescLe_total sizeDescLe_trans
      (gatherAcc ig root).folder_sizes
    have h2 := List.Pairwise.sublist (List.take_sublist 10 _) h
    exact h2.imp fun hxy => by simpa [sizeDescLe] using hxy
  · intro s
    rw [← sortStable_filter sizeDescLe_total sizeDescLe_trans]
    refine sortStable_eq_self _ _ ?_
    intro x hx y hy
    rw [List.mem_filter] at hx hy
    have hx2 : x.2 = s := by simpa using hx.2
    have hy2 : y.2 = s := by simpa using hy.2
    simp [sizeDescLe, hx2, hy2]
  · intro s
    rw [← sortStable_filter sizeDescLe_total sizeDescLe_trans]
    refine sortStable_eq_self _ _ ?_
    intro x hx y hy
    rw [List.mem_filter] at hx hy
    have hx2 : x.2 = s := by simpa using hx.2
    have hy2 : y.2 = s := by simpa using hy.2
    simp [sizeDescLe, hx2, hy2]

/-- **C8.** The children a directory's rendering emits are exactly the
non-excluded children in the stable order of the comparator
(is-file, lowercased name): the sorted list is a permutation of the children
in which every earlier entry is a directory unless the later one is a file,
and entries of the same kind are in case-insensitive alphabetical order; the
renderer then lists precisely that sorted, filtered sequence. -/
theorem renderer_children_sorted :
    (∀ cs : List Entry, (sortEntries cs).Perm cs ∧
      (sortEntries cs).Pairwise (fun a b =>
        (a.isDir = true ∨ b.isFile = true) ∧
          (a.isFile = b.isFile → a.name.toLower ≤ b.name.toLower))) ∧
    (∀ (ig : List String) (pre : String) (k : Nat) (n : String) (cs : List Entry),
      renderEntry ig pre (k + 1) (.dir n true cs) =
        renderChildren ig pre k ((sortEntries cs).filter (fun e => decide (e.name ∉ ig)))) := by
  constructor
  · intro cs
    refine ⟨sortStable_perm keyLe cs, ?_⟩
    exact (sortStable_pairwise keyLe_total keyLe_trans cs).imp fun h => keyLe_spec h
  · intro ig pre k n cs
    simp [renderEntry]

/-! ## The byte-size formatters -/

theorem fmt1_shape (q : ℚ) :
    ∃ m d : Nat, d < 10 ∧ fmt1 q = toString m ++ "." ++ toString d := by
  refine ⟨(round (q * 10)).toNat / 10, (round (q * 10)).toNat % 10, ?_, rfl⟩
  exact Nat.mod_lt _ (by norm_num)

theorem human_readable_go_shape (q : ℚ) :
    ∃ (m d : Nat) (u : String), d < 10 ∧ u ∈ ["B", "KB", "MB", "GB", "TB"] ∧
      human_readable_go q ["B", "KB", "MB", "GB", "TB"] =
        some (toString m ++ "." ++ toString d ++ " " ++ u) := by
  have step : ∀ (p : ℚ) (u : String) (us : List String), (p < 1024 ∨ u = "TB") →
      human_readable_go p (u :: us) = some (fmt1 p ++ " " ++ u) := by
    intro p u us h
    unfold human_readable_go
    rw [if_pos h]
  have skip : ∀ (p : ℚ) (u : String) (us : List String), ¬ p < 1024 → u ≠ "TB" →
      human_readable_go p (u :: us) = human_readable_go (p / 1024) us := by
    intro p u us h1 h2
    unfold human_readable_go
    rw [if_neg (not_or.mpr ⟨h1, h2⟩)]
    cases us <;> rfl
  have mk : ∀ (p : ℚ) (u : String) (us : List String), u ∈ ["B", "KB", "MB", "GB", "TB"] →
      (p < 1024 ∨ u = "TB") →
      ∃ (m d : Nat) (u' : String), d < 10 ∧ u' ∈ ["B", "KB", "MB", "GB", "TB"] ∧
        human_readable_go p (u :: us) =
          some (toString m ++ "." ++ toString d ++ " " ++ u') := by
    intro p u us hu hc
    obtain ⟨m, d, hd, hf⟩ := fmt1_shape p
    exact ⟨m, d, u, hd, hu, by rw [step p u us hc, hf]⟩
  by_cases h1 : q < 1024
  · exact mk q "B" _ (by simp) (Or.inl h1)
  · rw [skip q "B" _ h1 (by decide)]
    by_cases h2 : q / 1024 < 1024
    · exact mk _ "KB" _ (by simp) (Or.inl h2)
    · rw [skip _ "KB" _ h2 (by decide)]
      by_cases h3 : q / 1024 / 1024 < 1024
      · exact mk _ "MB" _ (by simp) (Or.inl h3)
      · rw [skip _ "MB" _ h3 (by decide)]
        by_cases h4 : q / 1024 / 1024 / 1024 < 1024
        · exact mk _ "GB" _ (by simp) (Or.inl h4)
        · rw [skip _ "GB" _ h4 (by decide)]
          exact mk _ "TB" _ (by simp) (Or.inr rfl)

/-- **C7, counterexample.** The claim as stated fails on the code: at the
byte count `2^1024` the conversion `float(n)` on line 255 raises
`OverflowError` before the loop is entered, so the formatter does not return
a string of the stated shape (nor any value at all). -/
theorem human_readable_overflow_counterexample :
    ¬ ∃ (m d : Nat) (u : String), d < 10 ∧ u ∈ ["B", "KB", "MB", "GB", "TB"] ∧
      human_readable (2 ^ 1024) =
        .returns (some (toString m ++ "." ++ toString d ++ " " ++ u)) := by
  have hov : human_readable (2 ^ 1024) = FmtResult.overflow := by
    unfold human_readable pyFloat
    rw [if_neg (Nat.not_lt.mpr (Nat.sub_le _ _))]
  rintro ⟨m, d, u, -, -, h⟩
  rw [hov] at h
  cases h

/-- **C7, amended.** For every nonnegative byte count on which `float(n)`
succeeds — exactly those below the overflow threshold `2^1024 − 2^970` — the
formatter returns a value: a number with one decimal place, a space, and a
unit among B, KB, MB, GB, TB, obtained by repeated division by 1024 and
capped at TB; the loop's implicit fall-through at the last unit is
unreachable, since the `TB` step returns unconditionally.  (For larger
inputs the conversion raises before the loop, and no string is produced.) -/
theorem human_readable_total_shape (n : Nat) (h : n < 2 ^ 1024 - 2 ^ 970) :
    ∃ (m d : Nat) (u : String), d < 10 ∧ u ∈ ["B", "KB", "MB", "GB", "TB"] ∧
      human_readable n =
        .returns (some (toString m ++ "." ++ toString d ++ " " ++ u)) := by
  obtain ⟨m, d, u, hd, hu, he⟩ := human_readable_go_shape (n : ℚ)
  refine ⟨m, d, u, hd, hu, ?_⟩
  unfold human_readable pyFloat
  rw [if_pos h]
  show FmtResult.returns (human_readable_go (n : ℚ) ["B", "KB", "MB", "GB", "TB"]) =
    FmtResult.returns (some (toString m ++ "." ++ toString d ++ " " ++ u))
  rw [he]

/-- Witness for **C7 (amended)**: 1536 bytes is below the overflow threshold
and formats to a one-decimal number with a unit. -/
theorem human_readable_total_shape_witness :
    ∃ (m d : Nat) (u : String), d < 10 ∧ u ∈ ["B", "KB", "MB", "GB", "TB"] ∧
      human_readable 1536 =
        .returns (some (toString m ++ "." ++ toString d ++ " " ++ u)) :=
  human_readable_total_shape 1536 (by norm_num)

theorem human_go_eq : ∀ (us : List String) (q : ℚ),
    human_size_go q us = human_readable_go q us := by
  intro us
  induction us with
  | nil => intro q; rfl
  | cons u us ih =>
    intro q
    unfold human_size_go human_readable_go
    by_cases h : q < 1024 ∨ u = "TB"
    · rw [if_pos h, if_pos h]
    · rw [if_neg h, if_neg h]
      exact ih _

/-- **C9.** The two byte-size formatters are duplicate implementations with
the same outcome on every nonnegative integer input — the same string when
the conversion succeeds, the same `OverflowError` when it does not — so
either can be substituted for the other without changing any output. -/
theorem formatters_agree (n : Nat) : human_size n = human_readable n := by
  unfold human_size human_readable
  cases h : pyFloat n with
  | none => rfl
  | some q =>
    show FmtResult.returns (human_size_go q ["B", "KB", "MB", "GB", "TB"]) =
      FmtResult.returns (human_readable_go q ["B", "KB", "MB", "GB", "TB"])
    rw [human_go_eq]

/-! ## Dotfiles and the Classifier -/

theorem lastDot_dotfile (rest : List Char) (hnd : '.' ∉ rest) :
    lastDot ('.' :: rest) = some 0 := by
  unfold lastDot
  rw [List.length_cons, List.range_succ_eq_map, List.filter_cons]
  have h0 : (('.' :: rest).get? 0 == some '.') = true := by
    rw [List.get?_cons_zero]
    simp
  rw [if_pos h0]
  have hrest : ((List.range rest.length).map Nat.succ).filter
      (fun i => ('.' :: rest).get? i == some '.') = [] := by
    rw [List.filter_eq_nil_iff]
    intro i hi
    obtain ⟨j, _, rfl⟩ := List.mem_map.mp hi
    rw [List.get?_cons_succ]
    cases hj : rest.get? j with
    | none => simp
    | some c =>
      have hc : c ∈ rest := List.get?_mem hj
      have : c ≠ '.' := fun h => hnd (h ▸ hc)
      simp [this]
  rw [hrest]
  rfl

theorem toLower_empty : ("" : String).toLower = "" := by
  show String.mapAux Char.toLower 0 "" = ""
  rw [String.mapAux]
  rw [dif_pos (by decide)]

theorem pathSuffix_dotfile (rest : List Char) (hnd : '.' ∉ rest) :
    pathSuffix (String.mk ('.' :: rest)) = "" := by
  show (match lastDot ('.' :: rest) with
    | none => ""
    | some i =>
      if 0 < i ∧ i < ('.' :: rest).length - 1 then String.mk (('.' :: rest).drop i)
      else "") = ""
  rw [lastDot_dotfile rest hnd]
  simp

/-- **C10.** A file whose name begins with a dot and contains no further dot
gets the empty extension from the Classifier, which resolves to no language
label (the empty string is not a key of `EXT_LANG`): processing such a file
increments `total_files` and `total_bytes` but leaves `LanguageCounts`
unchanged — even though `.env` itself is a key of the table, a key that only
matches names like `prod.env`. -/
theorem dotfile_no_language (rest : List Char) (hnd : '.' ∉ rest)
    (ig parts : List String) (acc : ScanAcc) (sz : Nat)
    (hig : String.mk ('.' :: rest) ∉ ig) :
    pathSuffix (String.mk ('.' :: rest)) = "" ∧
    List.lookup ((pathSuffix (String.mk ('.' :: rest))).toLower) EXT_LANG = none ∧
    (processFile ig parts acc (String.mk ('.' :: rest), some sz)).lang_counts =
      acc.lang_counts ∧
    (processFile ig parts acc (String.mk ('.' :: rest), some sz)).total_files =
      acc.total_files + 1 ∧
    (processFile ig parts acc (String.mk ('.' :: rest), some sz)).total_bytes =
      acc.total_bytes + sz ∧
    List.lookup ".env" EXT_LANG = some "ENV" ∧
    pathSuffix "prod.env" = ".env" := by
  have hsuf : pathSuffix (String.mk ('.' :: rest)) = "" := pathSuffix_dotfile rest hnd
  have hlook : List.lookup ((pathSuffix (String.mk ('.' :: rest))).toLower) EXT_LANG = none := by
    rw [hsuf, toLower_empty]
    decide
  have hstep : processFile ig parts acc (String.mk ('.' :: rest), some sz) =
      { total_files := acc.total_files + 1
        total_bytes := acc.total_bytes + sz
        file_sizes := acc.file_sizes ++ [(parts ++ [String.mk ('.' :: rest)], sz)]
        folder_sizes := bumpAncestors acc.folder_sizes parts sz
        lang_counts := acc.lang_counts } := by
    unfold processFile
    rw [if_neg hig]
    rw [hlook]
  exact ⟨hsuf, hlook, by rw [hstep], by rw [hstep], by rw [hstep], by decide, by decide⟩

/-- Witness for **C10**: the file named exactly `.env`, with size 5, at the
root, with an empty exclusion set. -/
theorem dotfile_no_language_witness :
    pathSuffix (String.mk ('.' :: ['e', 'n', 'v'])) = "" ∧
    List.lookup ((pathSuffix (String.mk ('.' :: ['e', 'n', 'v']))).toLower) EXT_LANG = none ∧
    (processFile [] [] initAcc (String.mk ('.' :: ['e', 'n', 'v']), some 5)).lang_counts =
      initAcc.lang_counts ∧
    (processFile [] [] initAcc (String.mk ('.' :: ['e', 'n', 'v']), some 5)).total_files =
      initAcc.total_files + 1 ∧
    (processFile [] [] initAcc (String.mk ('.' :: ['e', 'n', 'v']), some 5)).total_bytes =
      initAcc.total_bytes + 5 ∧
    List.lookup ".env" EXT_LANG = some "ENV" ∧
    pathSuffix "prod.env" = ".env" :=
  dotfile_no_language ['e', 'n', 'v'] (by decide) [] [] initAcc 5 (by decide)

end OutlineRepo
